import Mathlib

/-!
Shallow embedding of the selective-staging core of the `gayt` Git client:
the patch synthesizer `generatePatch` and the split-view alignment logic
of `SplitViewRows` (both in the diff-viewer component), over the diff data
model of `src/types/index.ts`.
-/

namespace Gayt

/-- `DiffLine` from `src/types/index.ts`: one physical diff line.
`origin` is a one-character string (`" "`, `"+"`, `"-"`, ... — "char in
rust, string in js"). -/
structure DiffLine where
  content : String
  origin : String
  oldLineno : Option Nat
  newLineno : Option Nat
  deriving Repr, DecidableEq

/-- `DiffHunk` from `src/types/index.ts`. -/
structure DiffHunk where
  header : String
  lines : List DiffLine
  deriving Repr, DecidableEq

/-- `FileDiff` from `src/types/index.ts`. -/
structure FileDiff where
  path : String
  hunks : List DiffHunk
  deriving Repr, DecidableEq

/-- The selection-set key `` `${h}-${l}` `` used by the diff viewer. -/
def key (h l : Nat) : String := toString h ++ "-" ++ toString l

/-- `parseInt` on a run of decimal digit characters. -/
def digitsToNat (ds : List Char) : Nat :=
  ds.foldl (fun n c => n * 10 + (c.toNat - 48)) 0

/-- One attempt of the header regex
`/@@ \-(\d+)(?:,(\d+))? \+(\d+)(?:,(\d+))? @@/` anchored at the start of
`cs`, returning capture groups 1 and 3 (old start, new start) — the only
groups `generatePatch` reads.  The optional `(?:,(\d+))?` groups consume a
comma and a nonempty digit run when present; since a digit can never match
the following literal `' '`, greedy matching is deterministic here. -/
def parseHeaderAt (cs : List Char) : Option (Nat × Nat) :=
  match cs with
  | '@' :: '@' :: ' ' :: '-' :: rest =>
    let d1 := rest.takeWhile Char.isDigit
    let r1 := rest.dropWhile Char.isDigit
    if d1 = [] then none else
    let r2 := match r1 with
      | ',' :: t => if t.takeWhile Char.isDigit = [] then r1 else t.dropWhile Char.isDigit
      | _ => r1
    match r2 with
    | ' ' :: '+' :: rest2 =>
      let d3 := rest2.takeWhile Char.isDigit
      let r3 := rest2.dropWhile Char.isDigit
      if d3 = [] then none else
      let r4 := match r3 with
        | ',' :: t => if t.takeWhile Char.isDigit = [] then r3 else t.dropWhile Char.isDigit
        | _ => r3
      match r4 with
      | ' ' :: '@' :: '@' :: _ => some (digitsToNat d1, digitsToNat d3)
      | _ => none
    | _ => none
  | _ => none

/-- JavaScript `String.prototype.match` searches for the leftmost position
where the pattern matches: try `parseHeaderAt` at every suffix in order. -/
def parseHeaderSearch : List Char → Option (Nat × Nat)
  | [] => none
  | c :: rest =>
    match parseHeaderAt (c :: rest) with
    | some r => some r
    | none => parseHeaderSearch rest

/-- `hunk.header.match(/@@ \-(\d+)(?:,(\d+))? \+(\d+)(?:,(\d+))? @@/)`,
projected to the two capture groups `generatePatch` uses. -/
def parseHeader (s : String) : Option (Nat × Nat) :=
  parseHeaderSearch s.data

/-- `String.prototype.startsWith`, modelled on the character list. -/
def strStartsWith (s pre : String) : Bool :=
  pre.data.isPrefixOf s.data

/-- The inner line loop of `generatePatch` for hunk index `h`, walking the
lines from line index `l` on.  Result: `(emitted lines, oldLen, newLen,
hasSelectionInHunk)`.  Each branch mirrors one arm of the source's
`if`/`else if` chain on `line.origin`; a line whose origin is none of
`" "`, `"+"`, `"-"` falls through all arms and contributes nothing. -/
def walkLines (h : Nat) (sel : String → Bool) : Nat → List DiffLine → List String × Nat × Nat × Bool
  | _, [] => ([], 0, 0, false)
  | l, line :: rest =>
    let r := walkLines h sel (l + 1) rest
    if line.origin = " " then
      ((" " ++ line.content) :: r.1, r.2.1 + 1, r.2.2.1 + 1, r.2.2.2)
    else if line.origin = "+" then
      if sel (key h l) then (("+" ++ line.content) :: r.1, r.2.1, r.2.2.1 + 1, true)
      else r
    else if line.origin = "-" then
      if sel (key h l) then (("-" ++ line.content) :: r.1, r.2.1 + 1, r.2.2.1, true)
      else ((" " ++ line.content) :: r.1, r.2.1 + 1, r.2.2.1 + 1, r.2.2.2)
    else r

/-- The header reconstruction of `generatePatch`: the `,len` token is
appended only when the recomputed length differs from 1. -/
def reconstructHeader (oldStart oldLen newStart newLen : Nat) : String :=
  "@@ -" ++ toString oldStart ++ (if oldLen ≠ 1 then "," ++ toString oldLen else "")
    ++ " +" ++ toString newStart ++ (if newLen ≠ 1 then "," ++ toString newLen else "")
    ++ " @@"

/-- The per-hunk body of `generatePatch`'s outer loop: parse the header
(`continue` on failure modelled as the empty contribution), walk the lines,
and emit a reconstructed block only when `hasSelectionInHunk`. -/
def hunkPatch (h : Nat) (sel : String → Bool) (hunk : DiffHunk) : String :=
  match parseHeader hunk.header with
  | none => ""
  | some (os, ns) =>
    let r := walkLines h sel 0 hunk.lines
    if r.2.2.2 then
      reconstructHeader os r.2.1 ns r.2.2.1 ++ "\n" ++ String.intercalate "\n" r.1 ++ "\n"
    else ""

/-- The file preamble of `generatePatch`: `/dev/null` style iff the first
hunk's header starts with `@@ -0,0`. -/
def preamble (d : FileDiff) : String :=
  let isNewFile := match d.hunks with
    | [] => false
    | h0 :: _ => strStartsWith h0.header "@@ -0,0"
  if isNewFile then "--- /dev/null\n+++ b/" ++ d.path ++ "\n"
  else "--- a/" ++ d.path ++ "\n+++ b/" ++ d.path ++ "\n"

/-- `generatePatch(fileDiff, selectedIndices)`: the preamble followed by
each hunk's contribution in order, hunk indices taken from the original
hunk list. -/
def generatePatch (d : FileDiff) (sel : String → Bool) : String :=
  preamble d ++ String.join (d.hunks.enum.map (fun p => hunkPatch p.1 sel p.2))

/-- One aligned row of `SplitViewRows`; JS `null`/`undefined` fields are
both modelled as `none`. -/
structure Row where
  left : Option DiffLine
  right : Option DiffLine
  leftIndex : Option Nat
  rightIndex : Option Nat
  deriving Repr, DecidableEq

/-- The `for k in 0..max(d,a)` pairing loop of `SplitViewRows`: pair the
collected deletion run and addition run index-wise, padding the shorter
side with absent fields. -/
def pairRows : List (Nat × DiffLine) → List (Nat × DiffLine) → List Row
  | [], [] => []
  | (i, d) :: ds, [] => ⟨some d, none, some i, none⟩ :: pairRows ds []
  | [], (j, a) :: as_ => ⟨none, some a, none, some j⟩ :: pairRows [] as_
  | (i, d) :: ds, (j, a) :: as_ => ⟨some d, some a, some i, some j⟩ :: pairRows ds as_

/-- The `while (i < hunk.lines.length)` loop of `SplitViewRows` over the
(index, line) pairs still to process, with explicit fuel: the source's
`if`/`else if` chain advances `i` only for origins `" "`, `"-"`, `"+"`,
so on any other origin the JS loop never terminates — modelled as `none`
(the fuel-indexed family is constantly `none` on such input). -/
def buildRowsAux : Nat → List (Nat × DiffLine) → Option (List Row)
  | _, [] => some []
  | 0, _ :: _ => none
  | fuel + 1, (i, line) :: rest =>
    if line.origin = " " then
      (buildRowsAux fuel rest).map (fun rs => ⟨some line, some line, some i, some i⟩ :: rs)
    else if line.origin = "-" then
      let dels := (i, line) :: rest.takeWhile (fun p => p.2.origin = "-")
      let rest1 := rest.dropWhile (fun p => p.2.origin = "-")
      let adds := rest1.takeWhile (fun p => p.2.origin = "+")
      let rest2 := rest1.dropWhile (fun p => p.2.origin = "+")
      (buildRowsAux fuel rest2).map (fun rs => pairRows dels adds ++ rs)
    else if line.origin = "+" then
      (buildRowsAux fuel rest).map (fun rs => ⟨none, some line, none, some i⟩ :: rs)
    else none

/-- The row computation of `SplitViewRows` for one hunk. -/
def splitViewRows (hunk : DiffHunk) : Option (List Row) :=
  buildRowsAux (hunk.lines.length + 1) hunk.lines.enum

/-- A line origin the source's loops make progress on. -/
def wfOrigin (o : String) : Prop := o = " " ∨ o = "+" ∨ o = "-"

instance (o : String) : Decidable (wfOrigin o) := by
  unfold wfOrigin; infer_instance

/-- First character of a string, the observation used to state the header
count properties ("lines beginning with `-` or `' '`"). -/
def firstChar (s : String) : Option Char := s.data.head?

/-- Provenance of one aligned row with respect to the enumerated line
list `l`: each present side references an (index, line) pair of `l` whose
origin is of the matching kind, and a context reference fills both sides
of its row with the same index and line. -/
def rowFrom (l : List (Nat × DiffLine)) (row : Row) : Prop :=
  ((row.left = none ∧ row.leftIndex = none) ∨
    ∃ p ∈ l, row.left = some p.2 ∧ row.leftIndex = some p.1 ∧
      (p.2.origin = " " ∨ p.2.origin = "-")) ∧
  ((row.right = none ∧ row.rightIndex = none) ∨
    ∃ p ∈ l, row.right = some p.2 ∧ row.rightIndex = some p.1 ∧
      (p.2.origin = " " ∨ p.2.origin = "+")) ∧
  (∀ (i : Nat) (ln : DiffLine), row.leftIndex = some i → row.left = some ln →
    ln.origin = " " → row.rightIndex = some i ∧ row.right = some ln)

-- Sample data for concrete witnesses (the scenario of spec §8.7).
def ctxA : DiffLine := ⟨"a", " ", some 10, some 10⟩
def delB : DiffLine := ⟨"b", "-", some 11, none⟩
def addX : DiffLine := ⟨"x", "+", none, some 11⟩
def addY : DiffLine := ⟨"y", "+", none, some 12⟩
def ctxC : DiffLine := ⟨"c", " ", some 12, some 13⟩

def sampleHunk : DiffHunk := ⟨"@@ -10,3 +10,4 @@", [ctxA, delB, addX, addY, ctxC]⟩

def sampleDiff : FileDiff := ⟨"f", [sampleHunk]⟩

/-- Selection containing only the key of line `x` (hunk 0, line 2). -/
def selX : String → Bool := fun k => k = "0-2"

/-- `selX` plus the key of line `y` (hunk 0, line 3): a strictly larger
selection, for the monotonicity witness. -/
def selXY : String → Bool := fun k => k = "0-2" || k = "0-3"

/-- `selX` plus a stale key `"9-9"` that names no line of `sampleDiff`. -/
def selXstale : String → Bool := fun k => k = "0-2" || k = "9-9"

/-- An emitted body line counted by `oldLen`: it begins with `-` or `' '`. -/
def isOldSide (s : String) : Bool :=
  firstChar s == some '-' || firstChar s == some ' '

/-- An emitted body line counted by `newLen`: it begins with `+` or `' '`. -/
def isNewSide (s : String) : Bool :=
  firstChar s == some '+' || firstChar s == some ' '

/-- Modelled from the claim's per-line description of `generatePatch`'s
walk: the contribution of one walked line to
`(emittedLines, oldLen, newLen, hasSelection)` — context emitted unchanged
counting on both sides; a selected deletion as a `-` line counting old
only; an unselected deletion re-emitted as context counting both; a
selected addition as a `+` line counting new only; an unselected addition
omitted. -/
def specStepLine (selected : Bool) (line : DiffLine) : List String × Nat × Nat × Bool :=
  if line.origin = " " then ([" " ++ line.content], 1, 1, false)
  else if line.origin = "-" then
    if selected then (["-" ++ line.content], 1, 0, true)
    else ([" " ++ line.content], 1, 1, false)
  else if line.origin = "+" then
    if selected then (["+" ++ line.content], 0, 1, true) else ([], 0, 0, false)
  else ([], 0, 0, false)

/-- Modelled from the claim's words (C3): the block a hunk is said to
yield under full selection — the recomputed header (old side counting
context and deletion lines, new side counting context and addition lines)
followed by the hunk's lines, line for line, each with its own origin
marker, in original order. -/
def specFullBlock (hunk : DiffHunk) : String :=
  match parseHeader hunk.header with
  | none => ""
  | some (os, ns) =>
    reconstructHeader os (hunk.lines.countP (fun ln => ln.origin == " " || ln.origin == "-"))
        ns (hunk.lines.countP (fun ln => ln.origin == " " || ln.origin == "+")) ++ "\n" ++
      String.intercalate "\n" (hunk.lines.map (fun ln => ln.origin ++ ln.content)) ++ "\n"

/-- A diff whose only hunk has a parseable header but no addition or
deletion line. -/
def ctxOnlyDiff : FileDiff := ⟨"f", [⟨"@@ -1 +1 @@", [⟨"a", " ", some 1, some 1⟩]⟩]⟩

/-- A hunk whose header starts with `@@ -0,0` but does not match the full
header pattern. -/
def badHunk : DiffHunk := ⟨"@@ -0,0", []⟩

def badDiff : FileDiff := ⟨"f", [badHunk]⟩

/-- `badDiff` with its unparseable hunk removed. -/
def badDiffRemoved : FileDiff := ⟨"f", []⟩

/-- A diff whose first hunk is unparseable and whose second is
`sampleHunk`. -/
def mixedDiff : FileDiff := ⟨"g", [badHunk, sampleHunk]⟩

def emptySel : String → Bool := fun _ => false

def fullSel : String → Bool := fun _ => true

theorem data_append (s t : String) : (s ++ t).data = s.data ++ t.data := by
  cases s; cases t; rfl

theorem firstChar_space (c : String) : firstChar (" " ++ c) = some ' ' := by
  unfold firstChar; rw [data_append]; rfl

theorem firstChar_plus (c : String) : firstChar ("+" ++ c) = some '+' := by
  unfold firstChar; rw [data_append]; rfl

theorem firstChar_dash (c : String) : firstChar ("-" ++ c) = some '-' := by
  unfold firstChar; rw [data_append]; rfl

theorem isOldSide_space (c : String) : isOldSide (" " ++ c) = true := by
  unfold isOldSide; rw [firstChar_space]; rfl

theorem isOldSide_plus (c : String) : isOldSide ("+" ++ c) = false := by
  unfold isOldSide; rw [firstChar_plus]; rfl

theorem isOldSide_dash (c : String) : isOldSide ("-" ++ c) = true := by
  unfold isOldSide; rw [firstChar_dash]; rfl

theorem isNewSide_space (c : String) : isNewSide (" " ++ c) = true := by
  unfold isNewSide; rw [firstChar_space]; rfl

theorem isNewSide_plus (c : String) : isNewSide ("+" ++ c) = true := by
  unfold isNewSide; rw [firstChar_plus]; rfl

theorem isNewSide_dash (c : String) : isNewSide ("-" ++ c) = false := by
  unfold isNewSide; rw [firstChar_dash]; rfl

/-- The two recomputed counters of the line walk count the emitted lines
by their first character. -/
theorem walkLines_counts (h : Nat) (sel : String → Bool) :
    ∀ (l : Nat) (lines : List DiffLine),
      (walkLines h sel l lines).2.1 = List.countP isOldSide (walkLines h sel l lines).1 ∧
      (walkLines h sel l lines).2.2.1 = List.countP isNewSide (walkLines h sel l lines).1 := by
  intro l lines
  induction lines generalizing l with
  | nil => simp [walkLines]
  | cons line rest ih =>
    obtain ⟨ih1, ih2⟩ := ih (l + 1)
    simp only [walkLines]
    split_ifs <;>
      simp [List.countP_cons, isOldSide_space, isOldSide_plus, isOldSide_dash,
        isNewSide_space, isNewSide_plus, isNewSide_dash, ih1, ih2]

/-- C1: for every hunk emitted by `generatePatch`, the recomputed header
counts are correct — `oldLen` equals the number of emitted body lines
beginning with `-` or `' '` and `newLen` the number beginning with `+` or
`' '` — and the reconstructed header omits each `,len` token exactly when
that count equals 1. -/
theorem generatePatch_header_counts (h : Nat) (sel : String → Bool) (hunk : DiffHunk)
    (os ns : Nat) (hp : parseHeader hunk.header = some (os, ns)) :
    (walkLines h sel 0 hunk.lines).2.1 =
        List.countP isOldSide (walkLines h sel 0 hunk.lines).1 ∧
    (walkLines h sel 0 hunk.lines).2.2.1 =
        List.countP isNewSide (walkLines h sel 0 hunk.lines).1 ∧
    ((walkLines h sel 0 hunk.lines).2.2.2 = true →
      hunkPatch h sel hunk =
        ("@@ -" ++ toString os ++
            (if (walkLines h sel 0 hunk.lines).2.1 = 1 then ""
              else "," ++ toString (walkLines h sel 0 hunk.lines).2.1) ++
            " +" ++ toString ns ++
            (if (walkLines h sel 0 hunk.lines).2.2.1 = 1 then ""
              else "," ++ toString (walkLines h sel 0 hunk.lines).2.2.1) ++
            " @@") ++ "\n" ++
          String.intercalate "\n" (walkLines h sel 0 hunk.lines).1 ++ "\n") := by
  have hc := walkLines_counts h sel 0 hunk.lines
  refine ⟨hc.1, hc.2, ?_⟩
  intro hsel
  simp only [hunkPatch, hp, hsel, if_true, reconstructHeader]
  by_cases h1 : (walkLines h sel 0 hunk.lines).2.1 = 1 <;>
    by_cases h2 : (walkLines h sel 0 hunk.lines).2.2.1 = 1 <;>
      simp [h1, h2]

theorem generatePatch_header_counts_witness :
    parseHeader sampleHunk.header = some (10, 10) ∧
    (walkLines 0 selX 0 sampleHunk.lines).2.1 =
        List.countP isOldSide (walkLines 0 selX 0 sampleHunk.lines).1 :=
  ⟨by decide, (generatePatch_header_counts 0 selX sampleHunk 10 10 (by decide)).1⟩

/-- C2: the walk of `generatePatch` treats each line exactly as described:
context lines are emitted unchanged and count on both sides, selected
deletions become `-` lines counting old only, unselected deletions are
re-emitted as context counting both, selected additions become `+` lines
counting new only, and unselected additions are omitted
(`specStepLine` is that per-line description, combined with the walk of
the remaining lines). -/
theorem walkLines_per_line (h : Nat) (sel : String → Bool) (l : Nat) (line : DiffLine)
    (rest : List DiffLine) :
    walkLines h sel l (line :: rest) =
      ((specStepLine (sel (key h l)) line).1 ++ (walkLines h sel (l + 1) rest).1,
        (specStepLine (sel (key h l)) line).2.1 + (walkLines h sel (l + 1) rest).2.1,
        (specStepLine (sel (key h l)) line).2.2.1 + (walkLines h sel (l + 1) rest).2.2.1,
        ((specStepLine (sel (key h l)) line).2.2.2 || (walkLines h sel (l + 1) rest).2.2.2)) := by
  simp only [walkLines, specStepLine]
  split_ifs <;> simp_all [Nat.add_comm]

theorem empty_append (s : String) : "" ++ s = s := by cases s; rfl

theorem append_empty (s : String) : s ++ "" = s := by
  cases s; show String.mk _ = _; rw [List.append_nil]

theorem join_cons (a : String) (l : List String) :
    String.join (a :: l) = a ++ String.join l := by
  rw [String.join_eq, String.join_eq]
  simp only [List.map_cons, List.flatten_cons]
  cases a; rfl

theorem join_all_empty : ∀ l : List String, (∀ s ∈ l, s = "") → String.join l = "" := by
  intro l
  induction l with
  | nil => intro _; rfl
  | cons a t ih =>
    intro hall
    rw [join_cons, hall a (by simp), empty_append]
    exact ih (fun s hs => hall s (by simp [hs]))

theorem append_newline_ne_empty (s : String) : s ++ "\n" ≠ "" := by
  intro h
  have h2 := congrArg String.data h
  rw [data_append] at h2
  rw [show ("\n" : String).data = ['\n'] from rfl] at h2
  rw [show ("" : String).data = [] from rfl] at h2
  exact absurd h2 (by simp)

/-- Closed form of the `hasSelectionInHunk` flag: it is set iff some
addition or deletion line of the walked suffix is selected. -/
theorem hasSel_eq_any (h : Nat) (sel : String → Bool) :
    ∀ (l : Nat) (lines : List DiffLine),
      (walkLines h sel l lines).2.2.2 =
        (lines.enumFrom l).any (fun p =>
          (p.2.origin == "+" || p.2.origin == "-") && sel (key h p.1)) := by
  intro l lines
  induction lines generalizing l with
  | nil => simp [walkLines]
  | cons line rest ih =>
    rw [List.enumFrom_cons, List.any_cons]
    simp only [walkLines]
    split_ifs with h1 h2 h3 h4 h5 <;> simp_all

/-- If the selection touches no addition/deletion line of the hunk, the
`hasSelectionInHunk` flag stays `false` and the hunk is dropped. -/
theorem hunkPatch_of_unselected (h : Nat) (sel : String → Bool) (hunk : DiffHunk)
    (hs : ∀ i ln, hunk.lines[i]? = some ln → (ln.origin = "+" ∨ ln.origin = "-") →
      sel (key h i) = false) :
    hunkPatch h sel hunk = "" := by
  have hfalse : (walkLines h sel 0 hunk.lines).2.2.2 = false := by
    rw [hasSel_eq_any]
    rw [List.any_eq_false]
    intro x hx
    have hxg : hunk.lines[x.1]? = some x.2 :=
      List.mem_enum_iff_getElem?.mp (by simpa [List.enum] using hx)
    by_cases ho : x.2.origin = "+" ∨ x.2.origin = "-"
    · have := hs x.1 x.2 hxg ho
      simp [this]
    · push_neg at ho
      simp [ho.1, ho.2]
  simp only [hunkPatch]
  cases hpar : parseHeader hunk.header with
  | none => rfl
  | some q => simp [hfalse]

/-- C4: no-op on empty or irrelevant selection — if the selection contains
no addition or deletion line of the diff, `generatePatch` returns the file
preamble only, with zero hunk blocks. -/
theorem generatePatch_noop (d : FileDiff) (sel : String → Bool)
    (hs : ∀ h hunk, d.hunks[h]? = some hunk → ∀ i ln, hunk.lines[i]? = some ln →
      (ln.origin = "+" ∨ ln.origin = "-") → sel (key h i) = false) :
    generatePatch d sel = preamble d := by
  unfold generatePatch
  have hjoin : String.join (d.hunks.enum.map (fun p => hunkPatch p.1 sel p.2)) = "" := by
    apply join_all_empty
    intro s hsmem
    obtain ⟨p, hp, rfl⟩ := List.mem_map.mp hsmem
    exact hunkPatch_of_unselected p.1 sel p.2 (hs p.1 p.2 (List.mem_enum_iff_getElem?.mp hp))
  rw [hjoin, append_empty]

theorem generatePatch_noop_witness :
    generatePatch sampleDiff (fun _ => false) = preamble sampleDiff :=
  generatePatch_noop sampleDiff (fun _ => false) (fun _ _ _ _ _ _ _ => rfl)

/-- Computation rule: a hunk with a parsed header and a selection emits
its reconstructed block. -/
theorem hunkPatch_emit (h : Nat) (sel : String → Bool) (hunk : DiffHunk) (os ns : Nat)
    (hpar : parseHeader hunk.header = some (os, ns))
    (hsel : (walkLines h sel 0 hunk.lines).2.2.2 = true) :
    hunkPatch h sel hunk =
      reconstructHeader os (walkLines h sel 0 hunk.lines).2.1 ns
          (walkLines h sel 0 hunk.lines).2.2.1 ++ "\n" ++
        String.intercalate "\n" (walkLines h sel 0 hunk.lines).1 ++ "\n" := by
  simp only [hunkPatch, hpar, hsel, if_true]

/-- Computation rule: a hunk with a parsed header but no selected change
line contributes nothing. -/
theorem hunkPatch_drop (h : Nat) (sel : String → Bool) (hunk : DiffHunk) (os ns : Nat)
    (hpar : parseHeader hunk.header = some (os, ns))
    (hsel : (walkLines h sel 0 hunk.lines).2.2.2 = false) :
    hunkPatch h sel hunk = "" := by
  simp only [hunkPatch, hpar, hsel, Bool.false_eq_true, if_false]

/-- Computation rule: a hunk whose header does not parse contributes
nothing (`continue`). -/
theorem hunkPatch_skip (h : Nat) (sel : String → Bool) (hunk : DiffHunk)
    (hpar : parseHeader hunk.header = none) :
    hunkPatch h sel hunk = "" := by
  simp only [hunkPatch, hpar]

/-- C7: selection monotonicity of hunk presence — growing the selection
never unsets `hasSelectionInHunk`, so every hunk that produces a block for
`S` also produces one for `T ⊇ S`. -/
theorem hunk_presence_mono (S T : String → Bool) (hsub : ∀ k, S k = true → T k = true)
    (h : Nat) (hunk : DiffHunk) :
    ((walkLines h S 0 hunk.lines).2.2.2 = true →
      (walkLines h T 0 hunk.lines).2.2.2 = true) ∧
    (hunkPatch h S hunk ≠ "" → hunkPatch h T hunk ≠ "") := by
  have hmono : (walkLines h S 0 hunk.lines).2.2.2 = true →
      (walkLines h T 0 hunk.lines).2.2.2 = true := by
    rw [hasSel_eq_any, hasSel_eq_any]
    intro hS
    rw [List.any_eq_true] at hS ⊢
    obtain ⟨x, hx, hpred⟩ := hS
    rw [Bool.and_eq_true] at hpred
    exact ⟨x, hx, by rw [Bool.and_eq_true]; exact ⟨hpred.1, hsub _ hpred.2⟩⟩
  refine ⟨hmono, ?_⟩
  intro hne
  cases hpar : parseHeader hunk.header with
  | none => exact absurd (hunkPatch_skip h S hunk hpar) hne
  | some q =>
    obtain ⟨os, ns⟩ := q
    by_cases hsel : (walkLines h S 0 hunk.lines).2.2.2 = true
    · rw [hunkPatch_emit h T hunk os ns hpar (hmono hsel)]
      exact append_newline_ne_empty _
    · rw [Bool.not_eq_true] at hsel
      exact absurd (hunkPatch_drop h S hunk os ns hpar hsel) hne

theorem hunk_presence_mono_witness :
    (walkLines 0 selXY 0 sampleHunk.lines).2.2.2 = true :=
  (hunk_presence_mono selX selXY
    (fun k hk => by
      simp only [selX, decide_eq_true_eq] at hk
      subst hk; rfl)
    0 sampleHunk).1 (by decide)

/-- The walk consults the selection only at keys of addition/deletion
lines actually present, so two selections agreeing there walk alike. -/
theorem walkLines_congr (h : Nat) (S T : String → Bool) :
    ∀ (l : Nat) (lines : List DiffLine),
      (∀ i ln, lines[i]? = some ln → (ln.origin = "+" ∨ ln.origin = "-") →
        S (key h (l + i)) = T (key h (l + i))) →
      walkLines h S l lines = walkLines h T l lines := by
  intro l lines
  induction lines generalizing l with
  | nil => intro _; rfl
  | cons line rest ih =>
    intro hag
    have hsel_eq : (line.origin = "+" ∨ line.origin = "-") → S (key h l) = T (key h l) :=
      fun ho => by simpa using hag 0 line (by simp) ho
    have htail : ∀ i ln, rest[i]? = some ln → (ln.origin = "+" ∨ ln.origin = "-") →
        S (key h (l + 1 + i)) = T (key h (l + 1 + i)) := by
      intro i ln hi ho
      have heq : l + 1 + i = l + (i + 1) := by omega
      rw [heq]
      exact hag (i + 1) ln (by simpa using hi) ho
    simp only [walkLines, ih (l + 1) htail]
    by_cases h1 : line.origin = " "
    · simp [h1]
    · by_cases h2 : line.origin = "+"
      · simp [h1, h2, hsel_eq (Or.inl h2)]
      · by_cases h3 : line.origin = "-"
        · simp [h1, h2, h3, hsel_eq (Or.inr h3)]
        · simp [h1, h2, h3]

theorem hunkPatch_congr (h : Nat) (S T : String → Bool) (hunk : DiffHunk)
    (hag : ∀ i ln, hunk.lines[i]? = some ln → (ln.origin = "+" ∨ ln.origin = "-") →
      S (key h i) = T (key h i)) :
    hunkPatch h S hunk = hunkPatch h T hunk := by
  have hw : walkLines h S 0 hunk.lines = walkLines h T 0 hunk.lines :=
    walkLines_congr h S T 0 hunk.lines (by intro i ln hi ho; simpa using hag i ln hi ho)
  simp only [hunkPatch, hw]

/-- C9: stale selection entries are inert — two selections agreeing on
every key that names an addition/deletion line actually present in the
diff produce identical patch text. -/
theorem generatePatch_stale_inert (d : FileDiff) (S T : String → Bool)
    (hag : ∀ h hunk, d.hunks[h]? = some hunk → ∀ i ln, hunk.lines[i]? = some ln →
      (ln.origin = "+" ∨ ln.origin = "-") → S (key h i) = T (key h i)) :
    generatePatch d S = generatePatch d T := by
  unfold generatePatch
  congr 1
  congr 1
  apply List.map_congr_left
  intro p hp
  exact hunkPatch_congr p.1 S T p.2 (hag p.1 p.2 (List.mem_enum_iff_getElem?.mp hp))

theorem generatePatch_stale_inert_witness :
    generatePatch sampleDiff selX = generatePatch sampleDiff selXstale := by
  apply generatePatch_stale_inert
  intro h hunk hh i ln hi ho
  have h0 : h = 0 := by
    cases h with
    | zero => rfl
    | succ n => simp [sampleDiff] at hh
  subst h0
  have hhunk : sampleHunk = hunk := by simpa [sampleDiff] using hh
  subst hhunk
  have hi5 : i < 5 := by
    have := (List.getElem?_eq_some.mp hi).1
    simpa [sampleHunk] using this
  interval_cases i <;> decide

/-- Under a selection containing every addition/deletion line of the
walked suffix (all origins well formed), the walk emits every line with
its own origin marker and counts by origin. -/
theorem walkLines_full (h : Nat) (sel : String → Bool) :
    ∀ (l : Nat) (lines : List DiffLine),
      (∀ (i : Nat) (ln : DiffLine), lines[i]? = some ln → wfOrigin ln.origin) →
      (∀ (i : Nat) (ln : DiffLine), lines[i]? = some ln →
        (ln.origin = "+" ∨ ln.origin = "-") → sel (key h (l + i)) = true) →
      walkLines h sel l lines =
        (lines.map (fun ln => ln.origin ++ ln.content),
          lines.countP (fun ln => ln.origin == " " || ln.origin == "-"),
          lines.countP (fun ln => ln.origin == " " || ln.origin == "+"),
          lines.any (fun ln => ln.origin == "+" || ln.origin == "-")) := by
  intro l lines
  induction lines generalizing l with
  | nil => simp [walkLines]
  | cons line rest ih =>
    intro hwf hsel
    have hwf0 := hwf 0 line (by simp)
    have htailwf : ∀ (i : Nat) (ln : DiffLine), rest[i]? = some ln → wfOrigin ln.origin := by
      intro i ln hi; exact hwf (i + 1) ln (by simpa using hi)
    have htailsel : ∀ (i : Nat) (ln : DiffLine), rest[i]? = some ln →
        (ln.origin = "+" ∨ ln.origin = "-") → sel (key h (l + 1 + i)) = true := by
      intro i ln hi ho
      have heq : l + 1 + i = l + (i + 1) := by omega
      rw [heq]
      exact hsel (i + 1) ln (by simpa using hi) ho
    have hr := ih (l + 1) htailwf htailsel
    simp only [walkLines, hr]
    rcases hwf0 with h1 | h1 | h1
    · simp [h1, List.countP_cons]
    · have hs : sel (key h l) = true := by simpa using hsel 0 line (by simp) (Or.inl h1)
      simp [h1, hs, List.countP_cons]
    · have hs : sel (key h l) = true := by simpa using hsel 0 line (by simp) (Or.inr h1)
      simp [h1, hs, List.countP_cons]

/-- A fully selected hunk (with parseable header, well-formed origins and
at least one changed line) emits exactly the spec-described block. -/
theorem hunkPatch_full (h : Nat) (sel : String → Bool) (hunk : DiffHunk) (os ns : Nat)
    (hpar : parseHeader hunk.header = some (os, ns))
    (hch : ∃ ln ∈ hunk.lines, ln.origin = "+" ∨ ln.origin = "-")
    (hwf : ∀ (i : Nat) (ln : DiffLine), hunk.lines[i]? = some ln → wfOrigin ln.origin)
    (hsel : ∀ (i : Nat) (ln : DiffLine), hunk.lines[i]? = some ln →
      (ln.origin = "+" ∨ ln.origin = "-") → sel (key h i) = true) :
    hunkPatch h sel hunk = specFullBlock hunk := by
  have hw := walkLines_full h sel 0 hunk.lines hwf
    (by intro i ln hi ho; simpa using hsel i ln hi ho)
  have hany : hunk.lines.any (fun ln => ln.origin == "+" || ln.origin == "-") = true := by
    rw [List.any_eq_true]
    obtain ⟨ln, hln, ho⟩ := hch
    exact ⟨ln, hln, by rcases ho with ho | ho <;> simp [ho]⟩
  have hhas : (walkLines h sel 0 hunk.lines).2.2.2 = true := by rw [hw]; exact hany
  rw [hunkPatch_emit h sel hunk os ns hpar hhas, hw]
  simp only [specFullBlock, hpar]

/-- C3 (amended): full selection recovers the diff, for diffs in which
every hunk's header parses, every line origin is well formed and every
hunk has at least one addition/deletion line — the synthesized patch is
the preamble followed by, for each hunk in order, a block line-for-line
identical to the original hunk, differing only in the recomputed
header. -/
theorem generatePatch_full_selection (d : FileDiff) (sel : String → Bool)
    (hall : ∀ h hunk, d.hunks[h]? = some hunk →
      (∃ os ns, parseHeader hunk.header = some (os, ns)) ∧
      (∃ ln ∈ hunk.lines, ln.origin = "+" ∨ ln.origin = "-") ∧
      (∀ (i : Nat) (ln : DiffLine), hunk.lines[i]? = some ln → wfOrigin ln.origin) ∧
      (∀ (i : Nat) (ln : DiffLine), hunk.lines[i]? = some ln →
        (ln.origin = "+" ∨ ln.origin = "-") → sel (key h i) = true)) :
    generatePatch d sel = preamble d ++ String.join (d.hunks.map specFullBlock) := by
  unfold generatePatch
  congr 1
  have hmap : d.hunks.enum.map (fun p => hunkPatch p.1 sel p.2) =
      d.hunks.enum.map (fun p => specFullBlock p.2) := by
    apply List.map_congr_left
    intro p hp
    obtain ⟨⟨os, ns, hpar⟩, hch, hwf, hsel⟩ := hall p.1 p.2 (List.mem_enum_iff_getElem?.mp hp)
    exact hunkPatch_full p.1 sel p.2 os ns hpar hch hwf hsel
  rw [hmap]
  congr 1
  conv_rhs => rw [← List.enum_map_snd d.hunks]
  rw [List.map_map]
  rfl

theorem generatePatch_full_selection_witness :
    generatePatch sampleDiff fullSel =
      preamble sampleDiff ++ String.join (sampleDiff.hunks.map specFullBlock) := by
  apply generatePatch_full_selection
  intro h hunk hh
  have h0 : h = 0 := by
    cases h with
    | zero => rfl
    | succ n => simp [sampleDiff] at hh
  subst h0
  have hhunk : sampleHunk = hunk := by simpa [sampleDiff] using hh
  subst hhunk
  refine ⟨⟨10, 10, by decide⟩, ⟨delB, by decide, Or.inr rfl⟩, ?_, ?_⟩
  · intro i ln hi
    have hm : ln ∈ sampleHunk.lines := List.getElem?_mem hi
    fin_cases hm <;> decide
  · intro i ln hi ho; rfl

/-- C3 counterexample: for a diff whose only hunk has no addition or
deletion line, the empty selection vacuously contains every
addition/deletion line, yet the synthesized patch drops the hunk instead
of reproducing it line for line. -/
theorem generatePatch_full_selection_cex :
    generatePatch ctxOnlyDiff emptySel ≠
      preamble ctxOnlyDiff ++ String.join (ctxOnlyDiff.hunks.map specFullBlock) := by
  decide

theorem join_map_filter {α : Type} (l : List α) (f : α → String) (q : α → Bool)
    (hq : ∀ x ∈ l, q x = false → f x = "") :
    String.join (l.map f) = String.join ((l.filter q).map f) := by
  induction l with
  | nil => rfl
  | cons a t ih =>
    have iht := ih (fun x hx hx' => hq x (by simp [hx]) hx')
    cases hqa : q a with
    | true =>
      rw [List.filter_cons_of_pos hqa]
      simp only [List.map_cons]
      rw [join_cons, join_cons, iht]
    | false =>
      rw [List.filter_cons_of_neg (by simp [hqa])]
      simp only [List.map_cons]
      rw [join_cons, hq a (by simp) hqa, empty_append, iht]

/-- C8 (amended): a hunk whose header does not parse contributes no
header and none of its lines; the patch is the preamble — still computed
from the original hunk list — followed by the contributions of exactly
the parseable hunks, each at its original hunk index. -/
theorem unparseable_skipped (d : FileDiff) (sel : String → Bool) (h : Nat) (hunk : DiffHunk)
    (hpar : parseHeader hunk.header = none) :
    hunkPatch h sel hunk = "" ∧
    generatePatch d sel = preamble d ++
      String.join ((d.hunks.enum.filter (fun p => (parseHeader p.2.header).isSome)).map
        (fun p => hunkPatch p.1 sel p.2)) := by
  refine ⟨hunkPatch_skip h sel hunk hpar, ?_⟩
  unfold generatePatch
  congr 1
  apply join_map_filter
  intro p _ hp
  apply hunkPatch_skip
  cases hq : parseHeader p.2.header with
  | none => rfl
  | some q => rw [hq] at hp; simp at hp

theorem unparseable_skipped_witness :
    hunkPatch 0 fullSel badHunk = "" ∧
    generatePatch mixedDiff fullSel = preamble mixedDiff ++
      String.join ((mixedDiff.hunks.enum.filter (fun p => (parseHeader p.2.header).isSome)).map
        (fun p => hunkPatch p.1 fullSel p.2)) :=
  unparseable_skipped mixedDiff fullSel 0 badHunk (by decide)

/-- C8 counterexample: the unparseable-header hunk is not synthesized "as
if absent" — its `@@ -0,0` prefix still drives new-file preamble
detection, so the patch differs from that of the diff with the hunk
removed. -/
theorem unparseable_skipped_cex :
    generatePatch badDiff emptySel ≠ generatePatch badDiffRemoved emptySel := by
  decide

theorem rowFrom_mono {l₁ l₂ : List (Nat × DiffLine)} (hsub : ∀ p ∈ l₁, p ∈ l₂)
    {row : Row} (h : rowFrom l₁ row) : rowFrom l₂ row := by
  obtain ⟨hL, hR, hC⟩ := h
  refine ⟨?_, ?_, hC⟩
  · rcases hL with hn | ⟨p, hp, h1, h2, h3⟩
    · exact Or.inl hn
    · exact Or.inr ⟨p, hsub p hp, h1, h2, h3⟩
  · rcases hR with hn | ⟨p, hp, h1, h2, h3⟩
    · exact Or.inl hn
    · exact Or.inr ⟨p, hsub p hp, h1, h2, h3⟩

/-- The pairing loop references exactly the deletion run on the left and
the addition run on the right, each in order. -/
theorem pairRows_spec : ∀ (ds as_ : List (Nat × DiffLine)),
    (pairRows ds as_).filterMap Row.left = ds.map Prod.snd ∧
    (pairRows ds as_).filterMap Row.leftIndex = ds.map Prod.fst ∧
    (pairRows ds as_).filterMap Row.right = as_.map Prod.snd ∧
    (pairRows ds as_).filterMap Row.rightIndex = as_.map Prod.fst := by
  intro ds
  induction ds with
  | nil =>
    intro as_
    induction as_ with
    | nil => simp [pairRows]
    | cons a t iht =>
      obtain ⟨j, a2⟩ := a
      simp [pairRows, List.filterMap_cons, iht]
  | cons d ds ihd =>
    intro as_
    obtain ⟨i0, d2⟩ := d
    cases as_ with
    | nil =>
      have := ihd []
      simp [pairRows, List.filterMap_cons, this]
    | cons a t =>
      obtain ⟨j, a2⟩ := a
      have := ihd t
      simp [pairRows, List.filterMap_cons, this]

/-- Every row produced by the pairing loop takes its left side from the
deletion run and its right side from the addition run (or leaves the side
absent). -/
theorem pairRows_shape : ∀ (ds as_ : List (Nat × DiffLine)) (row : Row),
    row ∈ pairRows ds as_ →
    ((row.left = none ∧ row.leftIndex = none) ∨
      ∃ p ∈ ds, row.left = some p.2 ∧ row.leftIndex = some p.1) ∧
    ((row.right = none ∧ row.rightIndex = none) ∨
      ∃ p ∈ as_, row.right = some p.2 ∧ row.rightIndex = some p.1) := by
  intro ds
  induction ds with
  | nil =>
    intro as_
    induction as_ with
    | nil => intro row h; simp [pairRows] at h
    | cons a t iht =>
      obtain ⟨j, a2⟩ := a
      intro row h
      rw [show pairRows [] ((j, a2) :: t) =
          ⟨none, some a2, none, some j⟩ :: pairRows [] t from by simp [pairRows]] at h
      rcases List.mem_cons.mp h with rfl | h
      · exact ⟨Or.inl ⟨rfl, rfl⟩, Or.inr ⟨(j, a2), by simp, rfl, rfl⟩⟩
      · obtain ⟨hL, hR⟩ := iht row h
        refine ⟨hL, ?_⟩
        rcases hR with hn | ⟨p, hp, h1, h2⟩
        · exact Or.inl hn
        · exact Or.inr ⟨p, by simp [hp], h1, h2⟩
  | cons d ds ihd =>
    intro as_
    obtain ⟨i0, d2⟩ := d
    cases as_ with
    | nil =>
      intro row h
      rw [show pairRows ((i0, d2) :: ds) [] =
          ⟨some d2, none, some i0, none⟩ :: pairRows ds [] from by simp [pairRows]] at h
      rcases List.mem_cons.mp h with rfl | h
      · exact ⟨Or.inr ⟨(i0, d2), by simp, rfl, rfl⟩, Or.inl ⟨rfl, rfl⟩⟩
      · obtain ⟨hL, hR⟩ := ihd [] row h
        refine ⟨?_, hR⟩
        rcases hL with hn | ⟨p, hp, h1, h2⟩
        · exact Or.inl hn
        · exact Or.inr ⟨p, by simp [hp], h1, h2⟩
    | cons a t =>
      obtain ⟨j, a2⟩ := a
      intro row h
      rw [show pairRows ((i0, d2) :: ds) ((j, a2) :: t) =
          ⟨some d2, some a2, some i0, some j⟩ :: pairRows ds t from by simp [pairRows]] at h
      rcases List.mem_cons.mp h with rfl | h
      · exact ⟨Or.inr ⟨(i0, d2), by simp, rfl, rfl⟩, Or.inr ⟨(j, a2), by simp, rfl, rfl⟩⟩
      · obtain ⟨hL, hR⟩ := ihd t row h
        refine ⟨?_, ?_⟩
        · rcases hL with hn | ⟨p, hp, h1, h2⟩
          · exact Or.inl hn
          · exact Or.inr ⟨p, by simp [hp], h1, h2⟩
        · rcases hR with hn | ⟨p, hp, h1, h2⟩
          · exact Or.inl hn
          · exact Or.inr ⟨p, by simp [hp], h1, h2⟩

/-- Master invariant of the `SplitViewRows` loop: given enough fuel and
well-formed origins, the loop succeeds, its rows reference the context and
deletion entries on the left and the context and addition entries on the
right, each exactly once and in original order, and every row satisfies
the provenance invariant. -/
theorem buildRowsAux_spec : ∀ (fuel : Nat) (l : List (Nat × DiffLine)),
    l.length ≤ fuel → (∀ p ∈ l, wfOrigin p.2.origin) →
    ∃ rows, buildRowsAux fuel l = some rows ∧
      rows.filterMap Row.left =
        (l.filter (fun p => p.2.origin == " " || p.2.origin == "-")).map Prod.snd ∧
      rows.filterMap Row.leftIndex =
        (l.filter (fun p => p.2.origin == " " || p.2.origin == "-")).map Prod.fst ∧
      rows.filterMap Row.right =
        (l.filter (fun p => p.2.origin == " " || p.2.origin == "+")).map Prod.snd ∧
      rows.filterMap Row.rightIndex =
        (l.filter (fun p => p.2.origin == " " || p.2.origin == "+")).map Prod.fst ∧
      ∀ row ∈ rows, rowFrom l row := by
  intro fuel
  induction fuel with
  | zero =>
    intro l hlen hwf
    cases l with
    | nil => exact ⟨[], rfl, by simp, by simp, by simp, by simp, by simp⟩
    | cons p t => simp at hlen
  | succ fuel ih =>
    intro l hlen hwf
    cases l with
    | nil => exact ⟨[], rfl, by simp, by simp, by simp, by simp, by simp⟩
    | cons p rest =>
      obtain ⟨i, line⟩ := p
      have hwf0 : wfOrigin line.origin := hwf (i, line) (by simp)
      have hwfrest : ∀ q ∈ rest, wfOrigin q.2.origin := fun q hq => hwf q (by simp [hq])
      have hlenr : rest.length ≤ fuel := by simpa using hlen
      rcases hwf0 with h1 | h1 | h1
      · -- context line
        obtain ⟨rows, hb, e1, e2, e3, e4, hfrom⟩ := ih rest hlenr hwfrest
        refine ⟨⟨some line, some line, some i, some i⟩ :: rows, ?_, ?_, ?_, ?_, ?_, ?_⟩
        · simp [buildRowsAux, h1, hb]
        · simp [List.filterMap_cons, List.filter_cons, h1, e1]
        · simp [List.filterMap_cons, List.filter_cons, h1, e2]
        · simp [List.filterMap_cons, List.filter_cons, h1, e3]
        · simp [List.filterMap_cons, List.filter_cons, h1, e4]
        · intro row hrow
          rcases List.mem_cons.mp hrow with rfl | hrow
          · refine ⟨Or.inr ⟨(i, line), by simp, rfl, rfl, Or.inl h1⟩,
              Or.inr ⟨(i, line), by simp, rfl, rfl, Or.inl h1⟩, ?_⟩
            intro i' ln hli hle _
            simp only [Option.some.injEq] at hli hle
            subst hli; subst hle
            exact ⟨rfl, rfl⟩
          · exact rowFrom_mono (fun q hq => by simp [hq]) (hfrom row hrow)
      · -- pure addition line
        obtain ⟨rows, hb, e1, e2, e3, e4, hfrom⟩ := ih rest hlenr hwfrest
        refine ⟨⟨none, some line, none, some i⟩ :: rows, ?_, ?_, ?_, ?_, ?_, ?_⟩
        · simp [buildRowsAux, h1, hb]
        · simp [List.filterMap_cons, List.filter_cons, h1, e1]
        · simp [List.filterMap_cons, List.filter_cons, h1, e2]
        · simp [List.filterMap_cons, List.filter_cons, h1, e3]
        · simp [List.filterMap_cons, List.filter_cons, h1, e4]
        · intro row hrow
          rcases List.mem_cons.mp hrow with rfl | hrow
          · refine ⟨Or.inl ⟨rfl, rfl⟩,
              Or.inr ⟨(i, line), by simp, rfl, rfl, Or.inr h1⟩, ?_⟩
            intro i' ln hli _ _
            simp at hli
          · exact rowFrom_mono (fun q hq => by simp [hq]) (hfrom row hrow)
      · -- deletion-led run
        have htw_dash : ∀ q ∈ rest.takeWhile (fun p => p.2.origin = "-"),
            q.2.origin = "-" := fun q hq => by
          have h2 := List.mem_takeWhile_imp hq
          exact of_decide_eq_true h2
        have hadds_plus : ∀ q ∈ (rest.dropWhile (fun p => p.2.origin = "-")).takeWhile
            (fun p => p.2.origin = "+"), q.2.origin = "+" := fun q hq => by
          have h2 := List.mem_takeWhile_imp hq
          exact of_decide_eq_true h2
        have htw_sub : ∀ q ∈ rest.takeWhile (fun p => p.2.origin = "-"),
            q ∈ (i, line) :: rest :=
          fun q hq => List.mem_cons_of_mem _ ((List.takeWhile_sublist _).subset hq)
        have hadds_sub : ∀ q ∈ (rest.dropWhile (fun p => p.2.origin = "-")).takeWhile
            (fun p => p.2.origin = "+"), q ∈ (i, line) :: rest :=
          fun q hq => List.mem_cons_of_mem _
            ((List.dropWhile_sublist _).subset ((List.takeWhile_sublist _).subset hq))
        have hrest2_sub : ∀ q ∈ (rest.dropWhile (fun p => p.2.origin = "-")).dropWhile
            (fun p => p.2.origin = "+"), q ∈ (i, line) :: rest :=
          fun q hq => List.mem_cons_of_mem _
            ((List.dropWhile_sublist _).subset ((List.dropWhile_sublist _).subset hq))
        have hlen2 : ((rest.dropWhile (fun p => p.2.origin = "-")).dropWhile
            (fun p => p.2.origin = "+")).length ≤ fuel :=
          le_trans (le_trans (List.dropWhile_sublist _).length_le
            (List.dropWhile_sublist _).length_le) hlenr
        have hwf2 : ∀ q ∈ (rest.dropWhile (fun p => p.2.origin = "-")).dropWhile
            (fun p => p.2.origin = "+"), wfOrigin q.2.origin :=
          fun q hq => hwf q (hrest2_sub q hq)
        obtain ⟨rows2, hb, f1, f2, f3, f4, hfrom2⟩ := ih _ hlen2 hwf2
        have hsplit : rest = rest.takeWhile (fun p => p.2.origin = "-") ++
            ((rest.dropWhile (fun p => p.2.origin = "-")).takeWhile (fun p => p.2.origin = "+") ++
              (rest.dropWhile (fun p => p.2.origin = "-")).dropWhile (fun p => p.2.origin = "+")) := by
          rw [List.takeWhile_append_dropWhile, List.takeWhile_append_dropWhile]
        have hps := pairRows_spec
          ((i, line) :: rest.takeWhile (fun p => p.2.origin = "-"))
          ((rest.dropWhile (fun p => p.2.origin = "-")).takeWhile (fun p => p.2.origin = "+"))
        have htw_l : (rest.takeWhile (fun p => p.2.origin = "-")).filter
            (fun p => p.2.origin == " " || p.2.origin == "-") =
            rest.takeWhile (fun p => p.2.origin = "-") :=
          List.filter_eq_self.mpr (fun q hq => by simp [htw_dash q hq])
        have htw_r : (rest.takeWhile (fun p => p.2.origin = "-")).filter
            (fun p => p.2.origin == " " || p.2.origin == "+") = [] := by
          rw [List.filter_eq_nil_iff]
          intro q hq
          simp [htw_dash q hq]
        have hadds_l : ((rest.dropWhile (fun p => p.2.origin = "-")).takeWhile
            (fun p => p.2.origin = "+")).filter
            (fun p => p.2.origin == " " || p.2.origin == "-") = [] := by
          rw [List.filter_eq_nil_iff]
          intro q hq
          simp [hadds_plus q hq]
        have hadds_r : ((rest.dropWhile (fun p => p.2.origin = "-")).takeWhile
            (fun p => p.2.origin = "+")).filter
            (fun p => p.2.origin == " " || p.2.origin == "+") =
            (rest.dropWhile (fun p => p.2.origin = "-")).takeWhile (fun p => p.2.origin = "+") :=
          List.filter_eq_self.mpr (fun q hq => by simp [hadds_plus q hq])
        refine ⟨pairRows
            ((i, line) :: rest.takeWhile (fun p => p.2.origin = "-"))
            ((rest.dropWhile (fun p => p.2.origin = "-")).takeWhile (fun p => p.2.origin = "+"))
            ++ rows2, ?_, ?_, ?_, ?_, ?_, ?_⟩
        · simp [buildRowsAux, h1, hb]
        · rw [List.filterMap_append, hps.1, f1]
          conv_rhs => rw [hsplit]
          simp [List.filter_cons, List.filter_append, h1, htw_l, hadds_l,
            -List.takeWhile_append_dropWhile]
        · rw [List.filterMap_append, hps.2.1, f2]
          conv_rhs => rw [hsplit]
          simp [List.filter_cons, List.filter_append, h1, htw_l, hadds_l,
            -List.takeWhile_append_dropWhile]
        · rw [List.filterMap_append, hps.2.2.1, f3]
          conv_rhs => rw [hsplit]
          simp [List.filter_cons, List.filter_append, h1, htw_r, hadds_r,
            -List.takeWhile_append_dropWhile]
        · rw [List.filterMap_append, hps.2.2.2, f4]
          conv_rhs => rw [hsplit]
          simp [List.filter_cons, List.filter_append, h1, htw_r, hadds_r,
            -List.takeWhile_append_dropWhile]
        · intro row hrow
          rcases List.mem_append.mp hrow with hrow | hrow
          · obtain ⟨hL, hR⟩ := pairRows_shape _ _ row hrow
            refine ⟨?_, ?_, ?_⟩
            · rcases hL with hn | ⟨q, hq, hql, hqli⟩
              · exact Or.inl hn
              · rcases List.mem_cons.mp hq with rfl | hq
                · exact Or.inr ⟨(i, line), by simp, hql, hqli, Or.inr h1⟩
                · exact Or.inr ⟨q, htw_sub q hq, hql, hqli, Or.inr (htw_dash q hq)⟩
            · rcases hR with hn | ⟨q, hq, hqr, hqri⟩
              · exact Or.inl hn
              · exact Or.inr ⟨q, hadds_sub q hq, hqr, hqri, Or.inr (hadds_plus q hq)⟩
            · intro i' ln hli hle hor
              rcases hL with hn | ⟨q, hq, hql, hqli⟩
              · rw [hn.2] at hli; simp at hli
              · rw [hql] at hle
                simp only [Option.some.injEq] at hle
                subst hle
                have : q.2.origin = "-" := by
                  rcases List.mem_cons.mp hq with rfl | hq
                  · exact h1
                  · exact htw_dash q hq
                rw [this] at hor
                simp at hor
          · exact rowFrom_mono hrest2_sub (hfrom2 row hrow)

theorem enum_filter_map_snd (lines : List DiffLine) (p : DiffLine → Bool) :
    (lines.enum.filter (fun q => p q.2)).map Prod.snd = lines.filter p := by
  rw [show (fun q : Nat × DiffLine => p q.2) = (p ∘ Prod.snd) from rfl]
  rw [← List.filter_map]
  rw [List.enum_map_snd]

/-- C5: alignment row coverage — the emitted rows reference, via their
left fields, exactly the context/deletion lines of the hunk (each index
exactly once, in order), via their right fields exactly the
context/addition lines, and every row's references point back into the
hunk with a context reference occupying both sides of its row. -/
theorem splitViewRows_coverage (hunk : DiffHunk)
    (hwf : ∀ ln ∈ hunk.lines, wfOrigin ln.origin) :
    ∃ rows, splitViewRows hunk = some rows ∧
      rows.filterMap Row.leftIndex =
        (hunk.lines.enum.filter (fun p => p.2.origin == " " || p.2.origin == "-")).map Prod.fst ∧
      rows.filterMap Row.rightIndex =
        (hunk.lines.enum.filter (fun p => p.2.origin == " " || p.2.origin == "+")).map Prod.fst ∧
      ∀ row ∈ rows, rowFrom hunk.lines.enum row := by
  have hwfe : ∀ p ∈ hunk.lines.enum, wfOrigin p.2.origin := by
    intro p hp
    exact hwf p.2 (List.getElem?_mem (List.mem_enum_iff_getElem?.mp hp))
  have hlen : hunk.lines.enum.length ≤ hunk.lines.length + 1 := by
    rw [List.enum_length]; omega
  obtain ⟨rows, hb, e1, e2, e3, e4, hfrom⟩ :=
    buildRowsAux_spec (hunk.lines.length + 1) hunk.lines.enum hlen hwfe
  exact ⟨rows, hb, e2, e4, hfrom⟩

theorem splitViewRows_coverage_witness :
    ∃ rows, splitViewRows sampleHunk = some rows ∧
      rows.filterMap Row.leftIndex =
        (sampleHunk.lines.enum.filter (fun p => p.2.origin == " " || p.2.origin == "-")).map Prod.fst ∧
      rows.filterMap Row.rightIndex =
        (sampleHunk.lines.enum.filter (fun p => p.2.origin == " " || p.2.origin == "+")).map Prod.fst ∧
      ∀ row ∈ rows, rowFrom sampleHunk.lines.enum row :=
  splitViewRows_coverage sampleHunk (by decide)

/-- C6: alignment row order preservation — the sequence of non-absent
left references of the rows, in row order, equals the subsequence of
context/deletion lines of the hunk in original order; symmetrically the
right references equal the context/addition subsequence. -/
theorem splitViewRows_order (hunk : DiffHunk)
    (hwf : ∀ ln ∈ hunk.lines, wfOrigin ln.origin) :
    ∃ rows, splitViewRows hunk = some rows ∧
      rows.filterMap Row.left =
        hunk.lines.filter (fun ln => ln.origin == " " || ln.origin == "-") ∧
      rows.filterMap Row.right =
        hunk.lines.filter (fun ln => ln.origin == " " || ln.origin == "+") := by
  have hwfe : ∀ p ∈ hunk.lines.enum, wfOrigin p.2.origin := by
    intro p hp
    exact hwf p.2 (List.getElem?_mem (List.mem_enum_iff_getElem?.mp hp))
  have hlen : hunk.lines.enum.length ≤ hunk.lines.length + 1 := by
    rw [List.enum_length]; omega
  obtain ⟨rows, hb, e1, e2, e3, e4, hfrom⟩ :=
    buildRowsAux_spec (hunk.lines.length + 1) hunk.lines.enum hlen hwfe
  refine ⟨rows, hb, ?_, ?_⟩
  · rw [e1]
    exact enum_filter_map_snd hunk.lines (fun ln => ln.origin == " " || ln.origin == "-")
  · rw [e3]
    exact enum_filter_map_snd hunk.lines (fun ln => ln.origin == " " || ln.origin == "+")

theorem splitViewRows_order_witness :
    ∃ rows, splitViewRows sampleHunk = some rows ∧
      rows.filterMap Row.left =
        sampleHunk.lines.filter (fun ln => ln.origin == " " || ln.origin == "-") ∧
      rows.filterMap Row.right =
        sampleHunk.lines.filter (fun ln => ln.origin == " " || ln.origin == "+") :=
  splitViewRows_order sampleHunk (by decide)

/-- C10: the alignment computation is total on well-formed hunks — the
single forward pass terminates with a row sequence (and a hunk with zero
lines yields zero rows). -/
theorem splitViewRows_total (hunk : DiffHunk)
    (hwf : ∀ ln ∈ hunk.lines, wfOrigin ln.origin) :
    (∃ rows, splitViewRows hunk = some rows) ∧
    (hunk.lines = [] → splitViewRows hunk = some []) := by
  constructor
  · have hwfe : ∀ p ∈ hunk.lines.enum, wfOrigin p.2.origin := by
      intro p hp
      exact hwf p.2 (List.getElem?_mem (List.mem_enum_iff_getElem?.mp hp))
    have hlen : hunk.lines.enum.length ≤ hunk.lines.length + 1 := by
      rw [List.enum_length]; omega
    obtain ⟨rows, hb, _, _, _, _, _⟩ :=
      buildRowsAux_spec (hunk.lines.length + 1) hunk.lines.enum hlen hwfe
    exact ⟨rows, hb⟩
  · intro h0
    unfold splitViewRows
    rw [h0]
    rfl

theorem splitViewRows_total_witness :
    ∃ rows, splitViewRows sampleHunk = some rows :=
  (splitViewRows_total sampleHunk (by decide)).1

example : parseHeader "@@ -10,3 +10,4 @@" = some (10, 10) := by decide
example : parseHeader "@@ -1 +1 @@" = some (1, 1) := by decide
example : parseHeader "@@ -0,0" = none := by decide
example : parseHeader "xx@@ -3,2 +4 @@ fn" = some (3, 4) := by decide
example : generatePatch sampleDiff selX =
    "--- a/f\n+++ b/f\n@@ -10,3 +10,4 @@\n a\n b\n+x\n c\n" := by decide

end Gayt
